import Mathlib

/-!
Verification of the storm database toolkit (eleven-am/storm) against its
natural-language specification.  Strings from the Go source are modelled as
`List Char`; Go slices, the middleware-manager reference and the transaction
handle are modelled explicitly where a claim depends on aliasing or state.
-/

namespace Storm

/-! ## Migration statement splitter (internal/storm/migrator.go) -/

/-- The four whitespace characters relevant to `strings.TrimSpace` for the
SQL texts in question (the Go function trims Unicode space; the inputs here
are ASCII). -/
def isSpaceChar (c : Char) : Bool :=
  c = ' ' || c = '\t' || c = '\n' || c = '\r'

/-- Trim leading and trailing whitespace, as `strings.TrimSpace`. -/
def trimSpace (s : List Char) : List Char :=
  ((s.dropWhile isSpaceChar).reverse.dropWhile isSpaceChar).reverse

/-- `strings.Split(s, "\n")`: split into lines, keeping empty lines. -/
def splitNl : List Char → List (List Char)
  | [] => [[]]
  | c :: rest =>
    if c = '\n' then [] :: splitNl rest
    else
      match splitNl rest with
      | [] => [[c]]
      | l :: ls => (c :: l) :: ls

/-- `strings.HasPrefix(line, "--")`. -/
def startsWithDashDash : List Char → Bool
  | '-' :: '-' :: _ => true
  | _ => false

/-- `isOnlyComments` from migrator.go: every line, after trimming, is empty
or starts with `--`. -/
def isOnlyComments (stmt : List Char) : Bool :=
  (splitNl stmt).all
    (fun line =>
      let trimmed := trimSpace line
      trimmed.isEmpty || startsWithDashDash trimmed)

/-- The append-if-nonempty-and-not-comment step shared by the semicolon case
and the final flush of `splitSQLStatements`. -/
def emitStmt (cur : List Char) (stmts : List (List Char)) : List (List Char) :=
  if trimSpace cur ≠ [] ∧ ¬ isOnlyComments (trimSpace cur) then
    stmts ++ [trimSpace cur]
  else stmts

/-- The final block of `splitSQLStatements`: flush `current` if nonempty. -/
def finishSplit (cur : List Char) (stmts : List (List Char)) : List (List Char) :=
  if cur ≠ [] then emitStmt cur stmts else stmts

/-- The scanning loop of `MigratorImpl.splitSQLStatements` (migrator.go
387-440).  State: remaining input, `inDollarQuote`, `current`, `statements`.
A `$$` pair toggles `inDollarQuote` (consuming both characters); a `;`
outside a dollar quote ends a statement; everything else is appended. -/
def splitLoop : List Char → Bool → List Char → List (List Char) → List (List Char)
  | [], _, cur, stmts => finishSplit cur stmts
  | [c], inDQ, cur, stmts =>
    if c = ';' ∧ inDQ = false then finishSplit [] (emitStmt (cur ++ [c]) stmts)
    else finishSplit (cur ++ [c]) stmts
  | c1 :: c2 :: rest, inDQ, cur, stmts =>
    if c1 = '$' ∧ c2 = '$' then
      splitLoop rest (!inDQ) (cur ++ [c1, c2]) stmts
    else if c1 = ';' ∧ inDQ = false then
      splitLoop (c2 :: rest) false [] (emitStmt (cur ++ [c1]) stmts)
    else
      splitLoop (c2 :: rest) inDQ (cur ++ [c1]) stmts

/-- `MigratorImpl.splitSQLStatements`. -/
def splitSQLStatements (sql : List Char) : List (List Char) :=
  splitLoop sql false [] []

/-- The single-quote character, written numerically. -/
def sqChar : Char := Char.ofNat 39

theorem splitLoop_step_dollar (d : List Char) (inDQ : Bool) (cur : List Char)
    (stmts : List (List Char)) :
    splitLoop ('$' :: '$' :: d) inDQ cur stmts
      = splitLoop d (!inDQ) (cur ++ ['$', '$']) stmts := by
  rw [splitLoop]; rw [if_pos ⟨rfl, rfl⟩]

theorem splitLoop_step_other (c d : Char) (ds : List Char) (inDQ : Bool)
    (cur : List Char) (stmts : List (List Char))
    (h1 : ¬ (c = '$' ∧ d = '$')) (h2 : ¬ (c = ';' ∧ inDQ = false)) :
    splitLoop (c :: d :: ds) inDQ cur stmts
      = splitLoop (d :: ds) inDQ (cur ++ [c]) stmts := by
  rw [splitLoop]; rw [if_neg h1, if_neg h2]

-- L1: inside a dollar quote, a body with no dollar sign is consumed verbatim.
theorem splitLoop_inDQ_consume (b : List Char) (hb : ∀ c ∈ b, c ≠ '$') :
    ∀ rest cur stmts, rest ≠ [] →
      splitLoop (b ++ rest) true cur stmts = splitLoop rest true (cur ++ b) stmts := by
  induction b with
  | nil => intro rest cur stmts _; simp
  | cons c b2 ih =>
    intro rest cur stmts hrest
    have hc : c ≠ '$' := hb c (by simp)
    have hb2 : ∀ x ∈ b2, x ≠ '$' := fun x hx => hb x (by simp [hx])
    rcases h2 : b2 ++ rest with _ | ⟨d, ds⟩
    · exact absurd (List.append_eq_nil.mp h2).2 hrest
    · have step : splitLoop (c :: (b2 ++ rest)) true cur stmts
          = splitLoop (b2 ++ rest) true (cur ++ [c]) stmts := by
        rw [h2]
        exact splitLoop_step_other c d ds true cur stmts
          (by rintro ⟨h, -⟩; exact hc h) (by rintro ⟨-, h⟩; exact absurd h (by decide))
      rw [List.cons_append, step, ih hb2 rest (cur ++ [c]) stmts hrest]
      simp

-- L2: outside a dollar quote, a prefix with no dollar and no semicolon is consumed.
theorem splitLoop_plain_consume (p : List Char) (hp : ∀ c ∈ p, c ≠ '$' ∧ c ≠ ';') :
    ∀ rest cur stmts, rest ≠ [] →
      splitLoop (p ++ rest) false cur stmts = splitLoop rest false (cur ++ p) stmts := by
  induction p with
  | nil => intro rest cur stmts _; simp
  | cons c p2 ih =>
    intro rest cur stmts hrest
    have hc := hp c (by simp)
    have hp2 : ∀ x ∈ p2, x ≠ '$' ∧ x ≠ ';' := fun x hx => hp x (by simp [hx])
    rcases h2 : p2 ++ rest with _ | ⟨d, ds⟩
    · exact absurd (List.append_eq_nil.mp h2).2 hrest
    · have step : splitLoop (c :: (p2 ++ rest)) false cur stmts
          = splitLoop (p2 ++ rest) false (cur ++ [c]) stmts := by
        rw [h2]
        exact splitLoop_step_other c d ds false cur stmts
          (by rintro ⟨h, -⟩; exact hc.1 h) (by rintro ⟨h, -⟩; exact hc.2 h)
      rw [List.cons_append, step, ih hp2 rest (cur ++ [c]) stmts hrest]
      simp

theorem mem_emitStmt (t : List Char) (cur : List Char) (stmts : List (List Char))
    (ht : t ∈ emitStmt cur stmts) :
    t ∈ stmts ∨ (t ≠ [] ∧ isOnlyComments t = false) := by
  unfold emitStmt at ht
  split at ht
  · rcases List.mem_append.mp ht with h | h
    · exact Or.inl h
    · rename_i hg
      right
      have : t = trimSpace cur := by simpa using h
      subst this
      exact ⟨hg.1, by simpa using hg.2⟩
  · exact Or.inl ht

theorem mem_finishSplit (t : List Char) (cur : List Char) (stmts : List (List Char))
    (ht : t ∈ finishSplit cur stmts) :
    t ∈ stmts ∨ (t ≠ [] ∧ isOnlyComments t = false) := by
  unfold finishSplit at ht
  split at ht
  · exact mem_emitStmt t cur stmts ht
  · exact Or.inl ht

theorem mem_splitLoop (s : List Char) (inDQ : Bool) (cur : List Char)
    (stmts : List (List Char)) (t : List Char)
    (ht : t ∈ splitLoop s inDQ cur stmts) :
    t ∈ stmts ∨ (t ≠ [] ∧ isOnlyComments t = false) := by
  induction s, inDQ, cur, stmts using splitLoop.induct generalizing t with
  | case1 inDQ cur stmts =>
    exact mem_finishSplit t cur stmts (by simpa [splitLoop] using ht)
  | case2 c inDQ cur stmts h =>
    rw [splitLoop, if_pos h] at ht
    rcases mem_finishSplit t [] _ ht with h2 | h2
    · exact mem_emitStmt t _ stmts h2
    · exact Or.inr h2
  | case3 c inDQ cur stmts h =>
    rw [splitLoop, if_neg h] at ht
    exact mem_finishSplit t _ stmts ht
  | case4 c1 c2 rest inDQ cur stmts h ih =>
    rw [splitLoop, if_pos h] at ht
    exact ih t ht
  | case5 c1 c2 rest inDQ cur stmts h1 h2 ih =>
    rw [splitLoop, if_neg h1, if_pos h2] at ht
    rcases ih t ht with h3 | h3
    · exact mem_emitStmt t _ stmts h3
    · exact Or.inr h3
  | case6 c1 c2 rest inDQ cur stmts h1 h2 ih =>
    rw [splitLoop, if_neg h1, if_neg h2] at ht
    exact ih t ht

/-- Claim C10: the statement splitter gives no special treatment to ordinary
single-quoted SQL string literals: splitting `INSERT INTO t VALUES ('a;b');`
splits at the semicolon inside the literal, yielding two statements. -/
theorem c10_single_quote_not_protected :
    splitSQLStatements
        ("INSERT INTO t VALUES (".data ++ [sqChar] ++ "a;b".data ++ [sqChar] ++ ");".data)
      = ["INSERT INTO t VALUES (".data ++ [sqChar] ++ "a;".data,
         "b".data ++ [sqChar] ++ ");".data]
    ∧ 1 < (splitSQLStatements
        ("INSERT INTO t VALUES (".data ++ [sqChar] ++ "a;b".data ++ [sqChar] ++ ");".data)).length := by
  constructor
  · decide
  · decide

/-- Claim C5, counterexample: the tagged dollar-quote form `$tag$ … $tag$` is
not recognised by `splitSQLStatements`; the semicolon inside it splits the
text into two statements, contradicting the claim that both dollar-quote
forms are preserved. -/
theorem c5_counterexample_tagged_dollar_quote :
    splitSQLStatements "DO $tag$ BEGIN SELECT 1; END $tag$;".data
      = ["DO $tag$ BEGIN SELECT 1;".data, "END $tag$;".data]
    ∧ splitSQLStatements "DO $tag$ BEGIN SELECT 1; END $tag$;".data
        ≠ ["DO $tag$ BEGIN SELECT 1; END $tag$;".data] := by
  constructor
  · decide
  · decide

/-- Claim C5 (amended): the splitter never splits at a semicolon occurring
inside an anonymous `$$ … $$` dollar quote (the tagged `$tag$ … $tag$` form
is not protected), it emits only statements that are nonempty and not
comment-only, and splitting `DO $$ BEGIN SELECT 1; END $$;` yields exactly
one statement. -/
theorem c5_split_dollar_quote_aware :
    (∀ p b : List Char, (∀ c ∈ p, c ≠ '$' ∧ c ≠ ';') → (∀ c ∈ b, c ≠ '$') →
      splitSQLStatements (p ++ '$' :: '$' :: (b ++ ['$', '$', ';']))
        = emitStmt (p ++ '$' :: '$' :: (b ++ ['$', '$', ';'])) [])
    ∧ (∀ s t : List Char, t ∈ splitSQLStatements s →
        t ≠ [] ∧ isOnlyComments t = false)
    ∧ splitSQLStatements "DO $$ BEGIN SELECT 1; END $$;".data
        = ["DO $$ BEGIN SELECT 1; END $$;".data] := by
  refine ⟨?_, ?_, by decide⟩
  · intro p b hp hb
    unfold splitSQLStatements
    rw [splitLoop_plain_consume p hp _ [] [] (by simp)]
    rw [splitLoop_step_dollar]
    simp only [Bool.not_false]
    rw [splitLoop_inDQ_consume b hb _ _ [] (by simp)]
    rw [splitLoop_step_dollar]
    simp only [Bool.not_true]
    have hsemi : ∀ cur : List Char, splitLoop [';'] false cur []
        = emitStmt (cur ++ [';']) [] := by
      intro cur
      rw [splitLoop]
      rw [if_pos ⟨rfl, rfl⟩]
      simp [finishSplit]
    rw [hsemi]
    congr 1
    simp
  · intro s t ht
    rcases mem_splitLoop s false [] [] t ht with h | h
    · simp at h
    · exact h

/-- Witness for `c5_split_dollar_quote_aware`: instantiating the general
part at a concrete prefix and body. -/
theorem c5_split_witness :
    splitSQLStatements ("DO ".data ++ '$' :: '$' :: (" BEGIN a; b; ".data ++ ['$', '$', ';']))
      = emitStmt ("DO ".data ++ '$' :: '$' :: (" BEGIN a; b; ".data ++ ['$', '$', ';'])) [] :=
  c5_split_dollar_quote_aware.1 "DO ".data " BEGIN a; b; ".data
    (by decide) (by decide)

/-! ## StringArray (pq-style array field) -/

/-- `strings.ReplaceAll(s, quote, quotequote)` from `StringArray.Value`:
double every internal double quote. -/
def escQuotes : List Char → List Char
  | [] => []
  | c :: rest => (if c = '"' then ['"', '"'] else [c]) ++ escQuotes rest

/-- One quoted element of the array literal: `"` + escaped + `"`. -/
def quoteElem (e : List Char) : List Char :=
  '"' :: (escQuotes e ++ ['"'])

/-- `strings.Join(parts, ",")`. -/
def joinSep (sep : List Char) : List (List Char) → List Char
  | [] => []
  | [x] => x
  | x :: y :: rest => x ++ sep ++ joinSep sep (y :: rest)

/-- `StringArray.Value` (part_000 398-414).  A nil slice is `none`; the
produced driver value is `none` (SQL NULL) for nil, `"{}"` for empty, and
the braced comma-joined quoted elements otherwise. -/
def arrayValue : Option (List (List Char)) → Option (List Char)
  | none => none
  | some sa =>
    if sa.length = 0 then some "{}".data
    else some ('{' :: joinSep [','] (sa.map quoteElem) ++ ['}'])

/-- The character-scanning loop of `StringArray.parseArray` (part_000
438-466).  State: remaining content, `inQuotes`, `current`, `result`.  A
doubled quote inside quotes writes one quote; a single quote toggles; a
comma outside quotes pushes `current` (even when empty); every other
character is written. -/
def parseLoop : List Char → Bool → List Char → List (List Char) → List (List Char)
  | [], _, cur, res => if cur ≠ [] ∨ res ≠ [] then res ++ [cur] else res
  | [c], inQ, cur, res =>
    if c = '"' then parseLoop [] (!inQ) cur res
    else if c = ',' then
      (if inQ then parseLoop [] true (cur ++ [c]) res
       else parseLoop [] false [] (res ++ [cur]))
    else parseLoop [] inQ (cur ++ [c]) res
  | c1 :: c2 :: rest, inQ, cur, res =>
    if c1 = '"' then
      (if inQ then
        (if c2 = '"' then parseLoop rest true (cur ++ [c1]) res
         else parseLoop (c2 :: rest) false cur res)
       else parseLoop (c2 :: rest) true cur res)
    else if c1 = ',' then
      (if inQ then parseLoop (c2 :: rest) true (cur ++ [c1]) res
       else parseLoop (c2 :: rest) false [] (res ++ [cur]))
    else parseLoop (c2 :: rest) inQ (cur ++ [c1]) res

/-- `StringArray.parseArray` (part_000 417-474).  `Except.error` models the
"invalid array format" error; the inner `Option` models the nil-ness of the
resulting Go slice (`none` = nil slice, as when the loop pushed nothing). -/
def parseArray (s : List Char) : Except Unit (Option (List (List Char))) :=
  if s = [] ∨ s = "{}".data then .ok (some [])
  else if ¬ (s.head? = some '{' ∧ s.getLast? = some '}') then .error ()
  else if (s.drop 1).dropLast = [] then .ok (some [])
  else if parseLoop ((s.drop 1).dropLast) false [] [] = [] then .ok none
  else .ok (some (parseLoop ((s.drop 1).dropLast) false [] []))

/-- `StringArray.Scan` (part_000 381-395) on a string/byte driver value or
SQL NULL: NULL sets the nil slice, otherwise the literal is parsed. -/
def arrayScan : Option (List Char) → Except Unit (Option (List (List Char)))
  | none => .ok none
  | some s => parseArray s

theorem parseLoop_esc_consume (e : List Char) :
    ∀ rest cur res,
      parseLoop (escQuotes e ++ '"' :: rest) true cur res
        = parseLoop ('"' :: rest) true (cur ++ e) res := by
  induction e with
  | nil => intro rest cur res; simp [escQuotes]
  | cons c e2 ih =>
    intro rest cur res
    by_cases hc : c = '"'
    · subst hc
      have hsh : escQuotes ('"' :: e2) ++ '"' :: rest
          = '"' :: '"' :: (escQuotes e2 ++ '"' :: rest) := by simp [escQuotes]
      rw [hsh]
      have hstep : parseLoop ('"' :: '"' :: (escQuotes e2 ++ '"' :: rest)) true cur res
          = parseLoop (escQuotes e2 ++ '"' :: rest) true (cur ++ ['"']) res := by
        simp only [parseLoop]
        simp
      rw [hstep, ih rest (cur ++ ['"']) res]
      simp
    · have hsh : escQuotes (c :: e2) ++ '"' :: rest
          = c :: (escQuotes e2 ++ '"' :: rest) := by simp [escQuotes, hc]
      rw [hsh]
      rcases h2 : escQuotes e2 ++ '"' :: rest with _ | ⟨d, ds⟩
      · simp at h2
      · have hstep : parseLoop (c :: d :: ds) true cur res
            = parseLoop (d :: ds) true (cur ++ [c]) res := by
          simp only [parseLoop]
          by_cases hcm : c = ','
          · simp [hc, hcm]
          · simp [hc, hcm]
        rw [hstep, ← h2, ih rest (cur ++ [c]) res]
        simp
theorem parseLoop_close (rest cur : List Char) (res : List (List Char))
    (h : rest = [] ∨ rest.head? ≠ some '"') :
    parseLoop ('"' :: rest) true cur res = parseLoop rest false cur res := by
  rcases rest with _ | ⟨d, ds⟩
  · rfl
  · have hd : d ≠ '"' := by
      rcases h with h | h
      · simp at h
      · simpa using h
    simp only [parseLoop]
    simp [hd]

theorem parseLoop_open (rest cur : List Char) (res : List (List Char)) :
    parseLoop ('"' :: rest) false cur res = parseLoop rest true cur res := by
  rcases rest with _ | ⟨d, ds⟩
  · rfl
  · simp only [parseLoop]
    simp

theorem parseLoop_comma (rest cur : List Char) (res : List (List Char)) :
    parseLoop (',' :: rest) false cur res = parseLoop rest false [] (res ++ [cur]) := by
  rcases rest with _ | ⟨d, ds⟩
  · rfl
  · simp only [parseLoop]
    simp

/-- The result of the parse loop over a well-formed quoted-joined content:
elements before the last are pushed at commas, the last is pushed by the
final flush only when it is nonempty or something was pushed before. -/
def parsedResult (res : List (List Char)) : List (List Char) → List (List Char)
  | [] => res
  | [e] => if e ≠ [] ∨ res ≠ [] then res ++ [e] else res
  | e :: e2 :: rest => parsedResult (res ++ [e]) (e2 :: rest)

theorem parseLoop_join (s : List (List Char)) (hs : s ≠ []) :
    ∀ res, parseLoop (joinSep [','] (s.map quoteElem)) false [] res
      = parsedResult res s := by
  induction s with
  | nil => exact absurd rfl hs
  | cons e stail ih =>
    intro res
    rcases stail with _ | ⟨e2, rest⟩
    · have hj : joinSep [','] ([e].map quoteElem) = quoteElem e := by simp [joinSep]
      rw [hj]
      unfold quoteElem
      rw [parseLoop_open, parseLoop_esc_consume e [] [] res,
          parseLoop_close [] ([] ++ e) res (Or.inl rfl)]
      simp [parseLoop, parsedResult]
    · have hj : joinSep [','] ((e :: e2 :: rest).map quoteElem)
          = '"' :: (escQuotes e ++ '"' :: ',' :: joinSep [','] ((e2 :: rest).map quoteElem)) := by
        simp [joinSep, quoteElem]
      rw [hj, parseLoop_open, parseLoop_esc_consume,
          parseLoop_close _ _ _ (Or.inr (by simp)), parseLoop_comma]
      rw [ih (by simp) (res ++ [[] ++ e])]
      simp [parsedResult]

theorem parsedResult_nonempty (s : List (List Char)) :
    ∀ res, res ≠ [] → parsedResult res s = res ++ s := by
  induction s with
  | nil => intro res _; simp [parsedResult]
  | cons e stail ih =>
    intro res hres
    rcases stail with _ | ⟨e2, rest⟩
    · simp [parsedResult, hres]
    · rw [parsedResult, ih (res ++ [e]) (by simp)]
      simp

theorem joinSep_quoted_shape (e : List Char) (tail : List (List Char)) :
    ∃ t, joinSep [','] ((e :: tail).map quoteElem) = '"' :: t := by
  rcases tail with _ | ⟨e2, rest⟩
  · exact ⟨escQuotes e ++ ['"'], by simp [joinSep, quoteElem]⟩
  · exact ⟨(escQuotes e ++ ['"']) ++ [','] ++ joinSep [','] ((e2 :: rest).map quoteElem),
      by simp [joinSep, quoteElem]⟩

/-- Claim C6, counterexample: the singleton sequence holding one empty
string does not round-trip: its literal `{""}` scans back to the nil
sequence, because the parse loop pushes nothing and the final flush only
fires for a nonempty current or a nonempty result. -/
theorem c6_counterexample_singleton_empty :
    arrayScan (arrayValue (some [([] : List Char)])) = .ok none
    ∧ (Except.ok (Option.some [([] : List Char)]) : Except Unit (Option (List (List Char))))
        ≠ .ok none := by
  refine ⟨rfl, ?_⟩
  intro h
  simp at h

/-- Claim C6 (amended): `Value` followed by `Scan` restores every finite
sequence of strings except the singleton sequence of one empty string;
`Scan` of SQL NULL yields the nil sequence, `Value` of the nil sequence
yields NULL, and `Value` of the empty sequence yields the literal `{}`. -/
theorem c6_string_array_roundtrip :
    (∀ s : List (List Char), s ≠ [[]] →
      arrayScan (arrayValue (some s)) = .ok (some s))
    ∧ arrayScan none = .ok none
    ∧ arrayValue none = none
    ∧ arrayValue (some []) = some "{}".data := by
  refine ⟨?_, rfl, rfl, rfl⟩
  intro s hs
  rcases s with _ | ⟨e, tail⟩
  · rfl
  · obtain ⟨t, ht⟩ := joinSep_quoted_shape e tail
    have hval : arrayValue (some (e :: tail))
        = some ('{' :: joinSep [','] ((e :: tail).map quoteElem) ++ ['}']) := by
      simp [arrayValue]
    rw [hval]
    show parseArray ('{' :: joinSep [','] ((e :: tail).map quoteElem) ++ ['}'])
        = .ok (some (e :: tail))
    have hbody : joinSep [','] ((e :: tail).map quoteElem) ≠ [] := by
      rw [ht]; simp
    have hr : parseLoop (joinSep [','] ((e :: tail).map quoteElem)) false [] []
        = parsedResult [] (e :: tail) := parseLoop_join (e :: tail) (by simp) []
    have hpr : parsedResult [] (e :: tail) = e :: tail := by
      rcases tail with _ | ⟨e2, rest⟩
      · have he : e ≠ [] := by
          intro h; exact hs (by rw [h])
        simp [parsedResult, he]
      · rw [parsedResult, parsedResult_nonempty (e2 :: rest) ([] ++ [e]) (by simp)]
        simp
    unfold parseArray
    rw [if_neg ?hne]
    case hne =>
      rintro (h | h)
      · simp at h
      · rw [ht] at h
        have hlen := congrArg List.length h
        rw [show ("{}".data).length = 2 from rfl] at hlen
        simp at hlen
    rw [if_neg ?hbr]
    case hbr =>
      intro hcon
      apply hcon
      constructor
      · simp
      · rw [show '{' :: joinSep [','] ((e :: tail).map quoteElem) ++ ['}']
            = ('{' :: joinSep [','] ((e :: tail).map quoteElem)) ++ ['}'] from by simp]
        exact List.getLast?_concat _
    have hcontent : (('{' :: joinSep [','] ((e :: tail).map quoteElem) ++ ['}']).drop 1).dropLast
        = joinSep [','] ((e :: tail).map quoteElem) := by
      simp [List.dropLast_concat]
    rw [hcontent, if_neg hbody, hr, hpr]
    rw [if_neg (by simp)]

/-- Witness for `c6_string_array_roundtrip`: the two-element sequence
`["ab", ""]` (which contains an empty string but is not the singleton
empty-string sequence) round-trips. -/
theorem c6_roundtrip_witness :
    arrayScan (arrayValue (some ["ab".data, "".data]))
      = .ok (some ["ab".data, "".data]) :=
  c6_string_array_roundtrip.1 ["ab".data, "".data] (by decide)

/-! ## Query.Update rendering (Query type, terminal operations) -/

/-- SQL argument values, as bound by the driver. -/
inductive SqlVal where
  | s (v : List Char)
  | i (v : Int)
  | b (v : Bool)
deriving DecidableEq

/-- The dynamic shape of `Action.Value()`: Go `nil`, a `[]interface{}`
list, or any other (scalar) value. -/
inductive ActionValue where
  | nothing
  | scalar (v : SqlVal)
  | list (vs : List SqlVal)
deriving DecidableEq

/-- One `Action` as Query.Update consumes it: the `Expression()` fragment
(with `?` placeholders) and the `Value()`. -/
structure ActionV where
  expr : List Char
  val : ActionValue
deriving DecidableEq

/-- Decimal digit character. -/
def digitChar (k : Nat) : Char :=
  if k = 0 then '0' else if k = 1 then '1' else if k = 2 then '2'
  else if k = 3 then '3' else if k = 4 then '4' else if k = 5 then '5'
  else if k = 6 then '6' else if k = 7 then '7' else if k = 8 then '8'
  else '9'

/-- Decimal digits of a natural number (fuel-based so that it reduces). -/
def natDigitsAux : Nat → Nat → List Char → List Char
  | 0, _, acc => acc
  | fuel + 1, n, acc =>
    if n < 10 then digitChar n :: acc
    else natDigitsAux fuel (n / 10) (digitChar (n % 10) :: acc)

/-- Decimal representation of a natural number, as `fmt.Sprintf("%d", n)`. -/
def natDigits (n : Nat) : List Char :=
  natDigitsAux (n + 1) n []

/-- `fmt.Sprintf("$%d", n)`: a positional placeholder. -/
def dollarPh (n : Nat) : List Char :=
  '$' :: natDigits n

/-- `strings.Contains(s, "?")`. -/
def containsQ (s : List Char) : Bool :=
  s.any (fun c => c = '?')

/-- Count of `?` placeholders in a fragment. -/
def qcount (s : List Char) : Nat :=
  s.countP (fun c => c = '?')

/-- `strings.Replace(s, "?", repl, 1)`: replace the first `?`. -/
def replaceFirstQ (repl : List Char) : List Char → List Char
  | [] => []
  | c :: rest => if c = '?' then repl ++ rest else c :: replaceFirstQ repl rest

/-- The scalar-value branch of the action loop in `Query.Update` (query
801-805): while the expression contains `?`, replace the first `?` with the
next `$N`, append the scalar value, and increment the counter.  The fuel is
the number of `?` in the expression, which the loop consumes one per
iteration. -/
def scalarLoop (v : SqlVal) : Nat → List Char → Nat → List Char × List SqlVal × Nat
  | 0, e, i => (e, [], i)
  | fuel + 1, e, i =>
    if containsQ e then
      match scalarLoop v fuel (replaceFirstQ (dollarPh i) e) (i + 1) with
      | (e2, args, i2) => (e2, v :: args, i2)
    else (e, [], i)

/-- The list-value branch of the action loop in `Query.Update` (query
793-798): one `?` is rewritten and one argument appended per list element. -/
def listLoop : List SqlVal → List Char → Nat → List Char × List SqlVal × Nat
  | [], e, i => (e, [], i)
  | v :: vs, e, i =>
    let e2 := replaceFirstQ (dollarPh i) e
    let r := listLoop vs e2 (i + 1)
    (r.1, v :: r.2.1, r.2.2)

/-- Processing of one action inside `Query.Update` (query 787-809): a nil
value leaves the expression untouched and binds nothing. -/
def applyAction (a : ActionV) (i : Nat) : List Char × List SqlVal × Nat :=
  match a.val with
  | .nothing => (a.expr, [], i)
  | .scalar v => scalarLoop v (qcount a.expr) a.expr i
  | .list vs => listLoop vs a.expr i

/-- The full action loop: rendered SET fragments, collected arguments and
the final `argIndex`, starting from `argIndex = 1`. -/
def renderActions : List ActionV → Nat → List (List Char) × List SqlVal × Nat
  | [], i => ([], [], i)
  | a :: rest, i =>
    let r1 := applyAction a i
    let r2 := renderActions rest r1.2.2
    (r1.1 :: r2.1, r1.2.1 ++ r2.2.1, r2.2.2)

/-- One rendered WHERE conjunct as squirrel sees it: a fragment with `?`
placeholders and its bound values. -/
structure CondV where
  frag : List Char
  vals : List SqlVal
deriving DecidableEq

/-- squirrel's `Dollar` placeholder format: rewrite each `?` to `$1`, `$2`,
… with a running counter. -/
def dollarize : List Char → Nat → List Char
  | [], _ => []
  | c :: rest, i =>
    if c = '?' then dollarPh i ++ dollarize rest (i + 1)
    else c :: dollarize rest i

/-- `squirrel.Select("1").Where(whereClause).PlaceholderFormat(Dollar).ToSql()`
for the accumulated conjuncts (query 814-815): the conjunction is rendered
parenthesised, joined by AND, with dollar placeholders, and the arguments
concatenated in order. -/
def whereBuilderToSql (conds : List CondV) : List Char × List SqlVal :=
  (dollarize ("SELECT 1 WHERE (".data ++ joinSep " AND ".data (conds.map CondV.frag) ++ [')']) 1,
   (conds.map CondV.vals).flatten)

/-- `strings.Index(s, pat)` (running offset). -/
def indexOfSubFrom (pat : List Char) : List Char → Nat → Option Nat
  | [], k => if pat = [] then some k else none
  | c :: rest, k =>
    if pat.isPrefixOf (c :: rest) then some k else indexOfSubFrom pat rest (k + 1)

/-- `strings.Replace(s, pat, repl, -1)` (fuel-based so that it reduces;
matches are non-overlapping, scanning left to right, and the inserted
replacement is not rescanned). -/
def replaceAllAux (pat repl : List Char) : Nat → List Char → List Char
  | 0, s => s
  | fuel + 1, s =>
    match s with
    | [] => []
    | c :: rest =>
      if pat ≠ [] ∧ pat.isPrefixOf (c :: rest) then
        repl ++ replaceAllAux pat repl fuel ((c :: rest).drop pat.length)
      else c :: replaceAllAux pat repl fuel rest

def replaceAllSub (s pat repl : List Char) : List Char :=
  replaceAllAux pat repl s.length s

/-- The placeholder-renumbering loop of `Query.Update` (query 829-833):
for each WHERE argument `i`, textually replace every `$(i+1)` by
`$(argIndex+i)` in the extracted WHERE clause. -/
def renumberAux (argIndex : Nat) : Nat → Nat → List Char → List Char
  | _, 0, wc => wc
  | i, k + 1, wc =>
    renumberAux argIndex (i + 1) k
      (replaceAllSub wc (dollarPh (i + 1)) (dollarPh (argIndex + i)))

/-- `Query.Update` SQL assembly (query 774-837): render the actions with a
running counter starting at 1, join the SET fragments with commas, then,
when conditions exist, extract the substring of the squirrel-rendered dummy
SELECT from `WHERE`, renumber its placeholders and append it, appending the
WHERE arguments after the action arguments. -/
def updateRender (table : List Char) (actions : List ActionV) (conds : List CondV) :
    Except Unit (List Char × List SqlVal) :=
  if actions = [] then .error ()
  else
    let r := renderActions actions 1
    let baseSQL := "UPDATE ".data ++ table ++ " SET ".data ++ joinSep ", ".data r.1
    if conds = [] then .ok (baseSQL, r.2.1)
    else
      let w := whereBuilderToSql conds
      match indexOfSubFrom "WHERE".data w.1 0 with
      | none => .ok (baseSQL, r.2.1)
      | some ws =>
        .ok (baseSQL ++ ' ' :: renumberAux r.2.2 0 w.2.length (w.1.drop ws),
             r.2.1 ++ w.2)

theorem digitChar_ne_q (k : Nat) : digitChar k ≠ '?' := by
  unfold digitChar
  split_ifs <;> decide

theorem mem_natDigitsAux (fuel : Nat) :
    ∀ n acc, (∀ c ∈ acc, c ≠ '?') → ∀ c ∈ natDigitsAux fuel n acc, c ≠ '?' := by
  induction fuel with
  | zero => intro n acc hacc c hc; exact hacc c hc
  | succ fuel ih =>
    intro n acc hacc c hc
    unfold natDigitsAux at hc
    split at hc
    · rcases List.mem_cons.mp hc with hc | hc
      · subst hc; exact digitChar_ne_q n
      · exact hacc c hc
    · refine ih (n / 10) (digitChar (n % 10) :: acc) ?_ c hc
      intro d hd
      rcases List.mem_cons.mp hd with hd | hd
      · subst hd; exact digitChar_ne_q (n % 10)
      · exact hacc d hd

theorem qcount_dollarPh (n : Nat) : qcount (dollarPh n) = 0 := by
  unfold qcount
  rw [List.countP_eq_zero]
  intro c hc
  rcases List.mem_cons.mp hc with hc | hc
  · subst hc; decide
  · have := mem_natDigitsAux (n + 1) n [] (by simp) c hc
    simpa using this

theorem containsQ_iff (e : List Char) : containsQ e = true ↔ qcount e ≠ 0 := by
  unfold containsQ qcount
  rw [List.any_eq_true]
  constructor
  · rintro ⟨c, hc, hq⟩ h0
    rw [List.countP_eq_zero] at h0
    exact h0 c hc hq
  · intro h
    have h2 := Nat.pos_of_ne_zero h
    rw [List.countP_pos_iff] at h2
    exact h2

theorem notContainsQ_mem (rest : List Char) (c : Char) (h : containsQ (c :: rest) = true)
    (hc : ¬ c = '?') : containsQ rest = true := by
  unfold containsQ at h ⊢
  rw [List.any_eq_true] at h ⊢
  rcases h with ⟨d, hd, hq⟩
  rcases List.mem_cons.mp hd with hd | hd
  · subst hd; exact absurd (by simpa using hq) hc
  · exact ⟨d, hd, hq⟩

theorem qcount_replaceFirstQ (repl : List Char) (hr : qcount repl = 0) :
    ∀ e, containsQ e = true → qcount (replaceFirstQ repl e) + 1 = qcount e := by
  intro e
  induction e with
  | nil => intro h; simp [containsQ] at h
  | cons c rest ih =>
    intro h
    by_cases hc : c = '?'
    · subst hc
      rw [replaceFirstQ, if_pos rfl]
      unfold qcount at hr ⊢
      rw [List.countP_append, hr]
      simp [List.countP_cons]
    · rw [replaceFirstQ, if_neg hc]
      have := ih (notContainsQ_mem rest c h hc)
      unfold qcount at this ⊢
      rw [List.countP_cons, List.countP_cons]
      simp only [hc]
      omega

theorem dollarize_no_q (e : List Char) (he : qcount e = 0) :
    ∀ i, dollarize e i = e := by
  induction e with
  | nil => intro i; rfl
  | cons c rest ih =>
    intro i
    unfold qcount at he
    rw [List.countP_cons] at he
    have hc : ¬ c = '?' := by
      intro h; simp [h] at he
    rw [dollarize, if_neg hc, ih (by unfold qcount; omega) i]

theorem dollarize_append_no_q (p : List Char) (hp : qcount p = 0) :
    ∀ r i, dollarize (p ++ r) i = p ++ dollarize r i := by
  induction p with
  | nil => intro r i; simp
  | cons c rest ih =>
    intro r i
    unfold qcount at hp
    rw [List.countP_cons] at hp
    have hc : ¬ c = '?' := by
      intro h; simp [h] at hp
    rw [List.cons_append, dollarize, if_neg hc, ih (by unfold qcount; omega) r i,
        List.cons_append]

theorem dollarize_replaceFirstQ (e : List Char) :
    ∀ i, containsQ e = true →
      dollarize e i = dollarize (replaceFirstQ (dollarPh i) e) (i + 1) := by
  induction e with
  | nil => intro i h; simp [containsQ] at h
  | cons c rest ih =>
    intro i h
    by_cases hc : c = '?'
    · subst hc
      rw [replaceFirstQ, if_pos rfl,
          dollarize_append_no_q (dollarPh i) (qcount_dollarPh i) rest (i + 1),
          dollarize, if_pos rfl]
    · rw [replaceFirstQ, if_neg hc, dollarize, if_neg hc, dollarize, if_neg hc,
          ih i (notContainsQ_mem rest c h hc)]

theorem scalarLoop_spec (v : SqlVal) :
    ∀ k e i, qcount e = k →
      scalarLoop v k e i = (dollarize e i, List.replicate k v, i + k) := by
  intro k
  induction k with
  | zero =>
    intro e i he
    rw [scalarLoop, dollarize_no_q e he i]
    simp
  | succ k ih =>
    intro e i he
    have hcq : containsQ e = true := (containsQ_iff e).mpr (by omega)
    have hq2 : qcount (replaceFirstQ (dollarPh i) e) = k := by
      have := qcount_replaceFirstQ (dollarPh i) (qcount_dollarPh i) e hcq
      omega
    rw [scalarLoop, if_pos hcq, ih (replaceFirstQ (dollarPh i) e) (i + 1) hq2,
        ← dollarize_replaceFirstQ e i hcq]
    rw [show i + 1 + k = i + (k + 1) from by omega]
    rfl

/-- Claim C9: in `Query.Update`, an action whose value is a non-nil scalar
and whose expression contains `k ≥ 1` placeholders has all `k` placeholders
rewritten to `k` consecutive positional indices starting at the running
counter (the running dollarization of its expression), with the scalar
bound once per placeholder; an action with a nil value is left untouched
and binds nothing. -/
theorem c9_scalar_action_binding :
    (∀ (e : List Char) (v : SqlVal) (i : Nat), 1 ≤ qcount e →
      applyAction ⟨e, .scalar v⟩ i
        = (dollarize e i, List.replicate (qcount e) v, i + qcount e))
    ∧ (∀ (e : List Char) (i : Nat), applyAction ⟨e, .nothing⟩ i = (e, [], i)) := by
  constructor
  · intro e v i _
    exact scalarLoop_spec v (qcount e) e i rfl
  · intro e i
    rfl

/-- Witness for `c9_scalar_action_binding`: a two-placeholder expression at
start index 3 binds the value twice, at `$3` and `$4`. -/
theorem c9_scalar_action_witness :
    applyAction ⟨"a = ? + ?".data, .scalar (.i 5)⟩ 3
      = ("a = $3 + $4".data, [.i 5, .i 5], 5) := by
  have h := c9_scalar_action_binding.1 "a = ? + ?".data (.i 5) 3 (by decide)
  rw [h]
  rfl

/-- Claim C1: `Query.Update`s placeholder renumbering of the WHERE clause
is done by sequential textual replacement, which collides when the actions
bind fewer arguments than the WHERE clause has parameters: with one action
argument and two WHERE parameters, both WHERE placeholders end up as `$3`,
`$2` never occurs in the statement, and yet three arguments are bound — so
argument positions do not all match their placeholders. -/
theorem c1_update_renumber_collision :
    updateRender "users".data
        [⟨"name = ?".data, .scalar (.s "X".data)⟩]
        [⟨"is_active = ?".data, [.b true]⟩, ⟨"role = ?".data, [.s "admin".data]⟩]
      = .ok ("UPDATE users SET name = $1 WHERE (is_active = $3 AND role = $3)".data,
             [.s "X".data, .b true, .s "admin".data])
    ∧ indexOfSubFrom "$2".data
        "UPDATE users SET name = $1 WHERE (is_active = $3 AND role = $3)".data 0 = none
    ∧ [SqlVal.s "X".data, .b true, .s "admin".data].length = 3 := by
  exact ⟨rfl, rfl, rfl⟩

/-! ## Repository, authorization list, middleware manager
(`Repository[T]`, part_004).  Go slices and the shared
`middlewareManager` pointer are modelled through an explicit heap so that
the copy-on-append of `Authorize` and the sharing of the manager are real
statements about aliasing. -/

/-- The mutable heap: backing arrays for `[]AuthorizeFunc` slices (entries
are `Option φ`, `none` being the zero value a `make` produces) and the
store of middleware managers (each an ordered list of middlewares `μ`). -/
structure OrmHeap (φ μ : Type) where
  arrays : List (List (Option φ))
  mms : List (List μ)

/-- A `Repository[T]` value: the executor, metadata and middleware-manager
references, and the `authorizeFuncs` slice (backing array id + length). -/
structure RepoM where
  db : Nat
  metadata : Nat
  mmRef : Nat
  funcsArr : Nat
  funcsLen : Nat

/-- The authorization list a repository observes on a heap. -/
def viewFuncs (h : OrmHeap φ μ) (r : RepoM) : List (Option φ) :=
  (h.arrays.getD r.funcsArr []).take r.funcsLen

/-- `make([]AuthorizeFunc[T], n)`: a fresh array of `n` zero values. -/
def goMake (φ : Type) (n : Nat) : List (Option φ) :=
  List.replicate n none

/-- `copy(dst, src)`: overwrite the first `min len` entries of `dst`. -/
def goCopy (dst src : List (Option φ)) : List (Option φ) :=
  src.take (min dst.length src.length) ++ dst.drop (min dst.length src.length)

/-- `Repository[T].Authorize` (part_004 119-130): allocate a fresh array of
length `len+1`, copy the receiver's functions, write `fn` at the end, and
return a new Repository sharing `db`, `metadata` and `middlewareManager`
with the receiver. -/
def authorize (h : OrmHeap φ μ) (r : RepoM) (fn : φ) : OrmHeap φ μ × RepoM :=
  let newFuncs :=
    (goCopy (goMake φ (r.funcsLen + 1)) (viewFuncs h r)).set r.funcsLen (some fn)
  ({ h with arrays := h.arrays ++ [newFuncs] },
   { db := r.db, metadata := r.metadata, mmRef := r.mmRef,
     funcsArr := h.arrays.length, funcsLen := r.funcsLen + 1 })

/-- A repository whose slice reference is inside the heap and whose length
does not exceed its backing array. -/
def validRepo (h : OrmHeap φ μ) (r : RepoM) : Prop :=
  r.funcsArr < h.arrays.length ∧ r.funcsLen ≤ (h.arrays.getD r.funcsArr []).length

/-- Modelled from the spec: `AddMiddleware(m)` appends `m` to the
manager's ordered list (§4.4); the middleware-manager implementation
itself is not under src/, only its callers and tests. -/
def addMiddleware (h : OrmHeap φ μ) (r : RepoM) (m : μ) : OrmHeap φ μ :=
  { h with mms := h.mms.set r.mmRef ((h.mms.getD r.mmRef []) ++ [m]) }

/-- The middleware list that operations of a repository run through. -/
def middlewaresOf (h : OrmHeap φ μ) (r : RepoM) : List μ :=
  h.mms.getD r.mmRef []

theorem getD_set_self (l : List α) (i : Nat) (v d : α) (hi : i < l.length) :
    (l.set i v).getD i d = v := by
  induction l generalizing i with
  | nil => simp at hi
  | cons x xs ih =>
    rcases i with _ | i
    · rfl
    · exact ih i (by simpa using hi)

theorem set_at_length (l : List α) (x v : α) :
    (l ++ [x]).set l.length v = l ++ [v] := by
  induction l with
  | nil => rfl
  | cons y ys ih => simp [List.set, ih]

theorem authorize_newFuncs (h : OrmHeap φ μ) (r : RepoM) (fn : φ)
    (hv : validRepo h r) :
    (goCopy (goMake φ (r.funcsLen + 1)) (viewFuncs h r)).set r.funcsLen (some fn)
      = viewFuncs h r ++ [some fn] := by
  have hlen : (viewFuncs h r).length = r.funcsLen := by
    unfold viewFuncs
    rw [List.length_take]
    exact Nat.min_eq_left hv.2
  unfold goCopy goMake
  rw [List.length_replicate, hlen]
  rw [Nat.min_eq_right (by omega)]
  rw [List.take_of_length_le (by omega)]
  have hdrop : (List.replicate (r.funcsLen + 1) (none : Option φ)).drop r.funcsLen
      = [none] := by
    rw [List.drop_replicate]
    simp
  rw [hdrop, ← hlen, set_at_length]

theorem authorize_frame (h : OrmHeap φ μ) (r : RepoM) (fn : φ) (a : Nat)
    (ha : a < h.arrays.length) :
    (authorize h r fn).1.arrays.getD a [] = h.arrays.getD a [] := by
  unfold authorize
  simp only
  rw [List.getD_eq_getElem?_getD, List.getD_eq_getElem?_getD,
      List.getElem?_append_left ha]

theorem authorize_mms_unchanged (h : OrmHeap φ μ) (r : RepoM) (fn : φ) :
    (authorize h r fn).1.mms = h.mms := rfl

theorem authorize_view_receiver (h : OrmHeap φ μ) (r : RepoM) (fn : φ)
    (hv : validRepo h r) :
    viewFuncs (authorize h r fn).1 r = viewFuncs h r := by
  unfold viewFuncs
  rw [authorize_frame h r fn r.funcsArr hv.1]

theorem authorize_view_new (h : OrmHeap φ μ) (r : RepoM) (fn : φ)
    (hv : validRepo h r) :
    viewFuncs (authorize h r fn).1 (authorize h r fn).2
      = viewFuncs h r ++ [some fn] := by
  have hlen : (viewFuncs h r).length = r.funcsLen := by
    unfold viewFuncs
    rw [List.length_take]
    exact Nat.min_eq_left hv.2
  show ((h.arrays ++ [_]).getD h.arrays.length []).take (r.funcsLen + 1) = _
  rw [List.getD_eq_getElem?_getD]
  rw [List.getElem?_append_right (Nat.le_refl _)]
  simp only [Nat.sub_self, List.getElem?_cons_zero, Option.getD_some]
  rw [authorize_newFuncs h r fn hv]
  rw [List.take_of_length_le (by rw [List.length_append, hlen]; simp)]

/-- Claim C3: `Authorize` leaves the receiver's authorization list
unchanged, returns a repository whose list is the receiver's list with the
function appended (length exactly +1), and never writes to any
pre-existing backing array, so distinct `Authorize` chains from the same
base are fully independent. -/
theorem c3_authorize_immutable {φ μ : Type} (h : OrmHeap φ μ) (r : RepoM)
    (fn : φ) (hv : validRepo h r) :
    viewFuncs (authorize h r fn).1 r = viewFuncs h r
    ∧ (authorize h r fn).2.funcsLen = r.funcsLen + 1
    ∧ viewFuncs (authorize h r fn).1 (authorize h r fn).2
        = viewFuncs h r ++ [some fn]
    ∧ ∀ a, a < h.arrays.length →
        (authorize h r fn).1.arrays.getD a [] = h.arrays.getD a [] :=
  ⟨authorize_view_receiver h r fn hv, rfl,
   authorize_view_new h r fn hv,
   fun a ha => authorize_frame h r fn a ha⟩

/-- Witness for `c3_authorize_immutable` on a one-function repository. -/
theorem c3_authorize_witness :
    viewFuncs (authorize (⟨[[some 7]], [[]]⟩ : OrmHeap Nat Nat)
        ⟨0, 0, 0, 0, 1⟩ 9).1 ⟨0, 0, 0, 0, 1⟩
      = viewFuncs (⟨[[some 7]], [[]]⟩ : OrmHeap Nat Nat) ⟨0, 0, 0, 0, 1⟩
    ∧ viewFuncs (authorize (⟨[[some 7]], [[]]⟩ : OrmHeap Nat Nat)
        ⟨0, 0, 0, 0, 1⟩ 9).1
        (authorize (⟨[[some 7]], [[]]⟩ : OrmHeap Nat Nat) ⟨0, 0, 0, 0, 1⟩ 9).2
      = [some 7, some 9] := by
  have h := c3_authorize_immutable (⟨[[some 7]], [[]]⟩ : OrmHeap Nat Nat)
    ⟨0, 0, 0, 0, 1⟩ 9 ⟨by decide, by decide⟩
  exact ⟨h.1, by rw [h.2.2.1]; rfl⟩

/-- Claim C8: the repository returned by `Authorize` carries the identical
executor, metadata and middleware-manager references; middleware added
through either repository after the call is observed by operations of
both; only the authorization list differs. -/
theorem c8_authorize_shares_manager {φ μ : Type} (h : OrmHeap φ μ) (r : RepoM)
    (fn : φ) (hm : r.mmRef < h.mms.length) :
    (authorize h r fn).2.mmRef = r.mmRef
    ∧ (authorize h r fn).2.db = r.db
    ∧ (authorize h r fn).2.metadata = r.metadata
    ∧ (∀ m : μ,
        middlewaresOf (addMiddleware (authorize h r fn).1 (authorize h r fn).2 m) r
          = middlewaresOf (authorize h r fn).1 r ++ [m]
        ∧ middlewaresOf (addMiddleware (authorize h r fn).1 r m) (authorize h r fn).2
          = middlewaresOf (authorize h r fn).1 (authorize h r fn).2 ++ [m]) := by
  refine ⟨rfl, rfl, rfl, fun m => ⟨?_, ?_⟩⟩
  · unfold middlewaresOf addMiddleware
    simp only [authorize_mms_unchanged]
    exact getD_set_self h.mms r.mmRef _ [] hm
  · unfold middlewaresOf addMiddleware
    simp only [authorize_mms_unchanged]
    exact getD_set_self h.mms r.mmRef _ [] hm

/-- Witness for `c8_authorize_shares_manager`: after `Authorize`, adding a
middleware through the new repository is seen by the old one. -/
theorem c8_authorize_witness :
    middlewaresOf
        (addMiddleware
          (authorize (⟨[[some 7]], [[4]]⟩ : OrmHeap Nat Nat) ⟨0, 0, 0, 0, 1⟩ 9).1
          (authorize (⟨[[some 7]], [[4]]⟩ : OrmHeap Nat Nat) ⟨0, 0, 0, 0, 1⟩ 9).2 5)
        ⟨0, 0, 0, 0, 1⟩
      = [4, 5] := by
  have h := c8_authorize_shares_manager (⟨[[some 7]], [[4]]⟩ : OrmHeap Nat Nat)
    ⟨0, 0, 0, 0, 1⟩ 9 (by decide)
  rw [(h.2.2.2 5).1]
  rfl

/-! ## Transaction manager (`Storm.WithTransaction`, storm.go 181-217;
`WithTransactionOptions` 219-256 is letter-identical after `BeginTxx`
receives the converted options). -/

/-- Errors as `WithTransaction` produces them: an inner error, the
not-a-database error, and the `fmt.Errorf` wrappers around begin and commit
failures. -/
inductive GoError where
  | user (n : Nat)
  | notDB
  | wrapBegin (e : GoError)
  | wrapCommit (e : GoError)
deriving DecidableEq

/-- Outcome of the callback `fn`. -/
inductive FnOut where
  | retNil
  | retErr (e : GoError)
  | panicked (p : Nat)
deriving DecidableEq

/-- Observable transaction states (§4.8: Idle → Active → Committed |
RolledBack; no transitions out of the terminal states). -/
inductive TxState where
  | active
  | committed
  | rolledBack
deriving DecidableEq

/-- What the caller observes: a normal return with an optional error, or a
propagated panic. -/
inductive TxOutcome where
  | normal (e : Option GoError)
  | panicked (p : Nat)
deriving DecidableEq

/-- `tx.Rollback()` as the deferred block uses it: completes an active
transaction; on an already-completed transaction the error is silently
ignored (storm.go 198-204), so the state is unchanged. -/
def rollbackTx : TxState → TxState
  | .active => .rolledBack
  | s => s

/-- `Storm.WithTransaction` (storm.go 181-217).  Inputs: whether the
current executor is already a transaction, whether the underlying handle is
a database pool, the result of `BeginTxx`, the callback outcome, and the
result of `tx.Commit()`.  Output: the final state of the transaction this
call began (`none` when it began none) and the caller-visible outcome.
`committed` is set only after a successful commit; the deferred block rolls
back whenever it is unset, including after a failed commit and during a
panic unwind. -/
def withTransaction (inTx : Bool) (isDB : Bool) (beginErr : Option GoError)
    (fnOut : FnOut) (commitErr : Option GoError) : Option TxState × TxOutcome :=
  if inTx then
    (none,
     match fnOut with
     | .retNil => .normal none
     | .retErr e => .normal (some e)
     | .panicked p => .panicked p)
  else if ¬ isDB then (none, .normal (some .notDB))
  else
    match beginErr with
    | some e => (none, .normal (some (.wrapBegin e)))
    | none =>
      match fnOut with
      | .panicked p => (some (rollbackTx .active), .panicked p)
      | .retErr e => (some (rollbackTx .active), .normal (some e))
      | .retNil =>
        match commitErr with
        | some ce => (some (rollbackTx .active), .normal (some (.wrapCommit ce)))
        | none => (some .committed, .normal none)

/-- Claim C4: when `WithTransaction` begins a new transaction (the executor
is not already a transaction, the handle is a database pool, and `BeginTxx`
succeeds): a callback error rolls back — never commits — and is returned
verbatim; a callback panic rolls back and propagates; a nil return commits,
and a commit failure is returned wrapped as a commit error. -/
theorem c4_with_transaction (fnOut : FnOut) (commitErr : Option GoError) :
    (∀ e, fnOut = .retErr e →
      withTransaction false true none fnOut commitErr
        = (some .rolledBack, .normal (some e)))
    ∧ (∀ p, fnOut = .panicked p →
      withTransaction false true none fnOut commitErr
        = (some .rolledBack, .panicked p))
    ∧ (fnOut = .retNil → commitErr = none →
      withTransaction false true none fnOut commitErr
        = (some .committed, .normal none))
    ∧ (fnOut = .retNil → ∀ ce, commitErr = some ce →
      withTransaction false true none fnOut commitErr
        = (some .rolledBack, .normal (some (.wrapCommit ce)))) := by
  refine ⟨?_, ?_, ?_, ?_⟩
  · intro e he; subst he; rfl
  · intro p hp; subst hp; rfl
  · intro hf hc; subst hf; subst hc; rfl
  · intro hf ce hc; subst hf; subst hc; rfl

/-- Witness for `c4_with_transaction`: a failing callback rolls back and
returns its error; a clean callback with a clean commit commits. -/
theorem c4_with_transaction_witness :
    withTransaction false true none (.retErr (.user 3)) none
      = (some .rolledBack, .normal (some (.user 3)))
    ∧ withTransaction false true none .retNil none
      = (some .committed, .normal none) :=
  ⟨(c4_with_transaction (.retErr (.user 3)) none).1 (.user 3) rfl,
   (c4_with_transaction .retNil none).2.2.1 rfl rfl⟩

/-! ## Query builder semantics for Find / Count / Exists
(query 574-724).  `Find` renders SELECT columns FROM table with the joins,
WHERE conjuncts, ORDER BY, LIMIT and OFFSET of the builder; `Count` renders
SELECT COUNT(*) with the same joins and WHERE but neither ORDER BY nor
LIMIT nor OFFSET; `Exists` returns `Count() > 0`.  The rendered statements
are interpreted by an executable relational semantics over a list of rows:
identical clauses are interpreted by the identical functions on both
paths, mirroring the identical clause-emission loops in the source. -/

inductive JoinKind where
  | inner
  | leftJ
  | rightJ
  | fullJ

/-- One join spec: the joined table's rows, the ON predicate, the merge of
a left and a right row into a result row, and the null-extensions used for
unmatched rows of outer joins. -/
structure JoinSpecM (α : Type) where
  kind : JoinKind
  table : List α
  onP : α → α → Bool
  merge : α → α → α
  leftNull : α → α
  rightNull : α → α

/-- SQL semantics of one JOIN clause applied to the current row list. -/
def evalJoin (rows : List α) (j : JoinSpecM α) : List α :=
  match j.kind with
  | .inner => rows.flatMap (fun r => (j.table.filter (j.onP r)).map (j.merge r))
  | .leftJ => rows.flatMap (fun r =>
      match (j.table.filter (j.onP r)).map (j.merge r) with
      | [] => [j.leftNull r]
      | ms => ms)
  | .rightJ => j.table.flatMap (fun s =>
      match (rows.filter (fun r => j.onP r s)).map (fun r => j.merge r s) with
      | [] => [j.rightNull s]
      | ms => ms)
  | .fullJ =>
      rows.flatMap (fun r =>
        match (j.table.filter (j.onP r)).map (j.merge r) with
        | [] => [j.leftNull r]
        | ms => ms)
      ++ (j.table.filter (fun s => rows.all (fun r => !j.onP r s))).map j.rightNull

/-- The builder state the terminal operations consume: WHERE conjuncts
(`whereClause squirrel.And`), ORDER BY keys, LIMIT, OFFSET, joins. -/
structure QueryStateM (α : Type) where
  wherePreds : List (α → Bool)
  orderKey : α → Nat
  joins : List (JoinSpecM α)
  limit : Option Nat
  offset : Option Nat

/-- The row set produced by the FROM/JOIN/WHERE part, which `Find` and
`Count` emit identically (query 581-596 and 667-682). -/
def baseRows (db : List α) (q : QueryStateM α) : List α :=
  (q.joins.foldl evalJoin db).filter (fun r => q.wherePreds.all (fun p => p r))

/-- A length-preserving stable sort for ORDER BY. -/
def insertSorted (key : α → Nat) (x : α) : List α → List α
  | [] => [x]
  | y :: ys => if key x < key y then x :: y :: ys else y :: insertSorted key x ys

def sortByKey (key : α → Nat) : List α → List α
  | [] => []
  | x :: xs => insertSorted key x (sortByKey key xs)

/-- `LIMIT n OFFSET m` semantics: skip `m` rows, return at most `n`. -/
def applyLimitOffset (limit offset : Option Nat) (rows : List α) : List α :=
  match limit with
  | some n => (match offset with | some m => rows.drop m | none => rows).take n
  | none => match offset with | some m => rows.drop m | none => rows

/-- Semantics of the statement `Find` renders (query 574-608): joins,
WHERE, ORDER BY, LIMIT, OFFSET.  Column projection returns the rows
themselves. -/
def findEval (db : List α) (q : QueryStateM α) : List α :=
  applyLimitOffset q.limit q.offset (sortByKey q.orderKey (baseRows db q))

/-- Semantics of the statement `Count` renders (query 662-682): COUNT(*)
over the same joins and WHERE, with no ORDER BY, LIMIT or OFFSET. -/
def countEval (db : List α) (q : QueryStateM α) : Nat :=
  (baseRows db q).length

/-- `Exists` (query 718-724): `Count() > 0`. -/
def existsEval (db : List α) (q : QueryStateM α) : Bool :=
  decide (0 < countEval db q)

theorem length_insertSorted (key : α → Nat) (x : α) (l : List α) :
    (insertSorted key x l).length = l.length + 1 := by
  induction l with
  | nil => rfl
  | cons y ys ih =>
    rw [insertSorted]
    split
    · simp
    · simp [ih]

theorem length_sortByKey (key : α → Nat) (l : List α) :
    (sortByKey key l).length = l.length := by
  induction l with
  | nil => rfl
  | cons x xs ih =>
    rw [sortByKey, length_insertSorted, ih, List.length_cons]

/-- Claim C2 (amended): for every builder without LIMIT and OFFSET —
including builders with WHERE conditions, joins and ORDER BY — `Count`
equals the length of `Find`; and for every builder whatsoever `Exists`
is `Count > 0`.  (With LIMIT or OFFSET set, `Count` ignores them while
`Find` applies them, so the unrestricted claim fails.) -/
theorem c2_count_find_exists {α : Type} (db : List α) (q : QueryStateM α)
    (hl : q.limit = none) (ho : q.offset = none) :
    countEval db q = (findEval db q).length
    ∧ ∀ (q2 : QueryStateM α), existsEval db q2 = decide (0 < countEval db q2) := by
  constructor
  · unfold findEval countEval applyLimitOffset
    rw [hl, ho]
    simp only
    rw [length_sortByKey]
  · intro q2
    rfl

/-- Claim C2, counterexample: a builder with `LIMIT 1` over a two-row table
has `Count() = 2` but `Find()` returns one row, so `Count` does not equal
the length of `Find` for builders carrying LIMIT. -/
theorem c2_counterexample_limit :
    countEval [10, 20]
        (⟨[], fun _ => 0, [], some 1, none⟩ : QueryStateM Nat) = 2
    ∧ (findEval [10, 20]
        (⟨[], fun _ => 0, [], some 1, none⟩ : QueryStateM Nat)).length = 1 := by
  exact ⟨rfl, rfl⟩

/-- Witness for `c2_count_find_exists`: a builder with a WHERE predicate,
an inner join and an ORDER BY key but no LIMIT/OFFSET. -/
theorem c2_count_find_witness :
    countEval [1, 2, 3]
        (⟨[fun r => decide (r % 2 = 1)], fun r => 10 - r,
          [⟨.inner, [1, 2], fun r s => decide (r ≤ s), fun r s => r + 10 * s,
            id, id⟩], none, none⟩ : QueryStateM Nat)
      = (findEval [1, 2, 3]
        (⟨[fun r => decide (r % 2 = 1)], fun r => 10 - r,
          [⟨.inner, [1, 2], fun r s => decide (r ≤ s), fun r s => r + 10 * s,
            id, id⟩], none, none⟩ : QueryStateM Nat)).length :=
  (c2_count_find_exists [1, 2, 3] _ rfl rfl).1

/-! ## Terminal operations and the middleware pipeline.
Each terminal operation of the builder is embedded as the sequence of
observable events it performs: entering the middleware pipeline with a
`MiddlewareContext`, and calling the driver.  `Find` (574), `Count` (662),
`Delete` (726) and `Update` (840) wrap their driver call in
`executeQueryMiddleware`; `First` (644) delegates to `Find` and `Exists`
(718) to `Count`; `ExecuteRaw` (1156-1176) calls the driver directly. -/

/-- Operation kinds (`OpQuery`, `OpCreate`, `OpUpdate`, `OpUpdateMany`,
`OpDelete`). -/
inductive OpKind where
  | query
  | create
  | updateOp
  | updateMany
  | deleteOp
deriving DecidableEq

/-- The middleware context handed to the pipeline: operation kind, table
name, the query-builder value (represented by its rendered statement), the
metadata map and the cancellation context (a token). -/
structure MWCtx where
  operation : OpKind
  table : List Char
  queryBuilder : List Char
  metadata : List (List Char × List Char)
  ctx : Nat
deriving DecidableEq

/-- Observable events of one terminal operation, in order. -/
inductive OpEvent where
  | pipelineEnter (c : MWCtx)
  | driverCall (sql : List Char)
deriving DecidableEq

/-- The repository state a terminal operation reads: table name and
metadata map. -/
structure RepoC where
  table : List Char
  metadata : List (List Char × List Char)

/-- Modelled from the spec: `Repository.executeQueryMiddleware` (the
middleware-manager implementation is not under src/, only its callers and
tests) builds a `MiddlewareContext` carrying the operation kind, table
name, query-builder value, metadata map and cancellation context (§4.3,
§4.4), runs the chain, and then the terminal driver function. -/
def executeQueryMiddleware (r : RepoC) (op : OpKind) (ctx : Nat)
    (qb : List Char) (driverSQL : List Char) : List OpEvent :=
  [.pipelineEnter ⟨op, r.table, qb, r.metadata, ctx⟩, .driverCall driverSQL]

/-- `Query.Find` without includes (574-642): pipeline with `OpQuery` and
the SELECT builder, driver inside the handler. -/
def findOpEvents (r : RepoC) (ctx : Nat) (selectSQL : List Char) : List OpEvent :=
  executeQueryMiddleware r .query ctx selectSQL selectSQL

/-- `Query.First` (644-660): forces LIMIT 1 and delegates to `Find`. -/
def firstOpEvents (r : RepoC) (ctx : Nat) (selectSQL : List Char) : List OpEvent :=
  findOpEvents r ctx selectSQL

/-- `Query.Count` (662-716): pipeline with `OpQuery` and the COUNT builder. -/
def countOpEvents (r : RepoC) (ctx : Nat) (countSQL : List Char) : List OpEvent :=
  executeQueryMiddleware r .query ctx countSQL countSQL

/-- `Query.Exists` (718-724): delegates to `Count`. -/
def existsOpEvents (r : RepoC) (ctx : Nat) (countSQL : List Char) : List OpEvent :=
  countOpEvents r ctx countSQL

/-- `Query.Delete` (726-771): pipeline with `OpDelete` and the DELETE
builder. -/
def deleteOpEvents (r : RepoC) (ctx : Nat) (deleteSQL : List Char) : List OpEvent :=
  executeQueryMiddleware r .deleteOp ctx deleteSQL deleteSQL

/-- `Query.Update` (774-869): pipeline with `OpUpdateMany` and the
assembled UPDATE statement. -/
def updateOpEvents (r : RepoC) (ctx : Nat) (updateSQL : List Char) : List OpEvent :=
  executeQueryMiddleware r .updateMany ctx updateSQL updateSQL

/-- `Query.ExecuteRaw` (1156-1176): the driver is called directly; no
middleware pipeline is entered. -/
def executeRawOpEvents (_r : RepoC) (_ctx : Nat) (rawSQL : List Char) : List OpEvent :=
  [.driverCall rawSQL]

/-- Claim C7, counterexample: `ExecuteRaw` reaches the driver without ever
entering the middleware pipeline, so not every terminal operation invokes
the pipeline before the driver call. -/
theorem c7_counterexample_execute_raw :
    executeRawOpEvents ⟨"users".data, []⟩ 0 "SELECT * FROM users WHERE id = $1".data
      = [.driverCall "SELECT * FROM users WHERE id = $1".data]
    ∧ (executeRawOpEvents ⟨"users".data, []⟩ 0
        "SELECT * FROM users WHERE id = $1".data).countP
        (fun e => match e with | .pipelineEnter _ => true | .driverCall _ => false) = 0 :=
  ⟨rfl, rfl⟩

/-- Claim C7 (amended): `Find`, `First`, `Count`, `Exists`, `Delete` and
`Update` each enter the middleware pipeline exactly once, before the driver
call, with a context carrying the operation kind, the table name, the
query-builder value, the metadata map and the cancellation context;
`ExecuteRaw` bypasses the pipeline and calls the driver directly. -/
theorem c7_terminal_operations_pipeline (r : RepoC) (ctx : Nat) (sql : List Char) :
    findOpEvents r ctx sql
      = [.pipelineEnter ⟨.query, r.table, sql, r.metadata, ctx⟩, .driverCall sql]
    ∧ firstOpEvents r ctx sql
      = [.pipelineEnter ⟨.query, r.table, sql, r.metadata, ctx⟩, .driverCall sql]
    ∧ countOpEvents r ctx sql
      = [.pipelineEnter ⟨.query, r.table, sql, r.metadata, ctx⟩, .driverCall sql]
    ∧ existsOpEvents r ctx sql
      = [.pipelineEnter ⟨.query, r.table, sql, r.metadata, ctx⟩, .driverCall sql]
    ∧ deleteOpEvents r ctx sql
      = [.pipelineEnter ⟨.deleteOp, r.table, sql, r.metadata, ctx⟩, .driverCall sql]
    ∧ updateOpEvents r ctx sql
      = [.pipelineEnter ⟨.updateMany, r.table, sql, r.metadata, ctx⟩, .driverCall sql]
    ∧ executeRawOpEvents r ctx sql = [.driverCall sql] :=
  ⟨rfl, rfl, rfl, rfl, rfl, rfl, rfl⟩

end Storm
